import Mathlib

/-!
# Verification of the UnSHACLed scheduler core

A shallow embedding, in Lean 4, of the parts of the UnSHACLed repository
that the specification's claims are about:

* `src/src/entities/timeCapsule.ts` — the `TimeCapsule<T>` snapshot/restore
  mechanism (instant tree, `findLastCommonAncestor`, `pathToAncestor`,
  `acquire`, `release`, `query`, `modify`).
* `src/src/entities/taskInstruction.ts` — the `TaskInstruction` DAG node
  (`generateInstructionIndex`, `addDependency`, `transferOutput`).
* The `PriorityGenerator`, whose implementation file
  (`priorityPartitionedQueue.ts`) is not in the source tree; it is modelled
  from the specification's algorithm (spec §4.3) and checked against the
  repository's own unit test expectations.

Modelling conventions:

* A time-capsule instant is identified with its path of edit identifiers
  from the root: `Instant := List Nat`; the root is `[]`, `parent` is
  `List.tail`, and `generation` (depth from root, as stored by the source
  constructor) is `List.length`. Reference equality of instant objects in
  the source corresponds to equality of these paths, since every `modify`
  creates a fresh node. The capsule's per-instant `redoChange`/`undoChange`
  thunks are carried by maps from the head edit identifier; the root's
  thunks are `TimeCapsule.discard`, which leaves the data unchanged.
* In-place mutation of the shared data becomes explicit state passing:
  a thunk `(state: T) => void` that mutates `state` becomes a function
  `T → T`, and the shared `TimeCapsuleState` record is threaded through
  `acquire`/`release`/`query`.
* A thrown `Error` becomes an `Except String` result; `query`, whose
  partial mutations survive a throw in the source, returns the state it
  reached together with the `Except` outcome.
-/

set_option autoImplicit false

namespace UnSHACLed

universe u v

/-! ## Time capsule (`src/src/entities/timeCapsule.ts`) -/

/-- A time-capsule instant, identified with its path of edit identifiers
from the root of the history tree.  The root instant is `[]`; an instant
created by `modify` with fresh edit identifier `e` from parent `p` is
`e :: p`.  The `parent` field of the source is `List.tail`. -/
abbrev Instant := List Nat

/-- The per-capsule assignment of `redoChange`/`undoChange` thunks to
edit identifiers.  In the source each non-root instant stores its two
thunks; here they are looked up by the instant's head edit identifier. -/
structure Capsule (T : Type u) where
  redoOf : Nat → T → T
  undoOf : Nat → T → T

/-- `TimeCapsuleState<T>`: the state shared by all instants of one
capsule — the mutable data, the current instant and the acquisition
count. -/
structure CapsuleState (T : Type u) where
  data : T
  currentInstant : Instant
  acquisitionCount : Nat

/-- `TimeCapsule.create`: the root instant is `[]` and the fresh shared
state points at it with acquisition count `0`. -/
def createState {T : Type u} (data : T) : CapsuleState T :=
  { data := data, currentInstant := [], acquisitionCount := 0 }

/-- `TimeCapsule.modify`: a child instant of `self` with fresh edit
identifier `eid`, whose `redo` is `doChange` and whose `undo` is
`undoChange`; the state is not touched. -/
def modify {T : Type u} (c : Capsule T) (self : Instant) (eid : Nat)
    (doChange undoChange : T → T) : Capsule T × Instant :=
  ({ redoOf := fun e => if e = eid then doChange else c.redoOf e,
     undoOf := fun e => if e = eid then undoChange else c.undoOf e },
   eid :: self)

/-- The `generation` stored by the source constructor: the number of edits
from the root, i.e. the length of the instant's path. -/
def generation (i : Instant) : Nat := i.length

/-- The `undoChange` thunk of an instant: the root's thunk is
`TimeCapsule.discard` (leaves the data unchanged), a non-root instant's is
the capsule's thunk for its head edit. -/
def instantUndo {T : Type u} (c : Capsule T) (i : Instant) (d : T) : T :=
  match i with
  | [] => d
  | e :: _ => c.undoOf e d

/-- The `redoChange` thunk of an instant, as for `instantUndo`. -/
def instantRedo {T : Type u} (c : Capsule T) (i : Instant) (d : T) : T :=
  match i with
  | [] => d
  | e :: _ => c.redoOf e d

/-- The first two loops of `findLastCommonAncestor`: walk an instant up to
its parent while its generation exceeds `n`. -/
def climbToGeneration : Instant → Nat → Instant
  | [], _ => []
  | e :: p, n => if p.length + 1 > n then climbToGeneration p n else e :: p

/-- The third loop of `findLastCommonAncestor`: walk both instants up in
lockstep until they are identical. -/
def lockstepClimb (f s : Instant) : Instant :=
  if f = s then f
  else
    match f, s with
    | [], _ => []
    | _, [] => []
    | _ :: fp, _ :: sp => lockstepClimb fp sp
termination_by f.length
decreasing_by simp_wf

/-- `TimeCapsule.findLastCommonAncestor`: walk the deeper instant up to
the shallower one's generation (first `first`, then `second`), then walk
both up in lockstep until identical. -/
def findLastCommonAncestor (first second : Instant) : Instant :=
  let f := climbToGeneration first second.length
  let s := climbToGeneration second f.length
  lockstepClimb f s

/-- `TimeCapsule.pathToAncestor`: all instants along the path to an
ancestor, including this instant and excluding the ancestor, nearest
first. -/
def pathToAncestor (i ancestor : Instant) : List Instant :=
  if i = ancestor then []
  else
    match i with
    | [] => []
    | _ :: p => i :: pathToAncestor p ancestor
termination_by i.length
decreasing_by simp_wf

/-- `TimeCapsule.acquire`: return at once when the current instant is
already `self`; fail when some other instant holds a positive acquisition
count; otherwise undo along the current-instant-to-ancestor path, redo
along the reversed self-to-ancestor path, and move the state to `self`. -/
def acquire {T : Type u} (c : Capsule T) (self : Instant)
    (st : CapsuleState T) : Except String (T × CapsuleState T) :=
  if st.currentInstant = self then
    .ok (st.data, { st with acquisitionCount := st.acquisitionCount + 1 })
  else if st.acquisitionCount > 0 then
    .error "Time capsule state has already been acquired by some other instant."
  else
    let ancestor := findLastCommonAncestor self st.currentInstant
    let d1 := (pathToAncestor st.currentInstant ancestor).foldl
      (fun d i => instantUndo c i d) st.data
    let d2 := ((pathToAncestor self ancestor).reverse).foldl
      (fun d i => instantRedo c i d) d1
    .ok (d2, { data := d2, currentInstant := self,
               acquisitionCount := st.acquisitionCount + 1 })

/-- `TimeCapsule.release`: fail when the count is zero or the current
instant is not `self`, otherwise decrement the count. -/
def release {T : Type u} (self : Instant) (st : CapsuleState T) :
    Except String (CapsuleState T) :=
  if st.acquisitionCount = 0 then
    .error "Cannot release a state that is not acquired."
  else if st.currentInstant ≠ self then
    .error "Cannot release a state that is acquired by some other instant."
  else
    .ok { st with acquisitionCount := st.acquisitionCount - 1 }

/-- `TimeCapsule.query`: `acquire`, call `func`, `release` — with no
`try`/`finally` in the source, so a throw inside `func` propagates and the
`release` is skipped.  The state reached before the throw is returned
alongside the `Except` outcome, mirroring the mutations that survive the
propagated exception. -/
def query {T : Type u} {R : Type v} (c : Capsule T) (self : Instant)
    (func : T → Except String R) (st : CapsuleState T) :
    CapsuleState T × Except String R :=
  match acquire c self st with
  | .error e => (st, .error e)
  | .ok (d, st1) =>
    match func d with
    | .error e => (st1, .error e)
    | .ok r =>
      match release self st1 with
      | .error e => (st1, .error e)
      | .ok st2 => (st2, .ok r)

/-! ## Task instructions (`src/src/entities/taskInstruction.ts`) -/

/-- Component identifiers are a closed enumeration treated as opaque
equatable tokens (their defining file is not part of the embedded
sources); they are represented by natural numbers. -/
abbrev ModelComponent := Nat

/-- Modelled from the spec: `ModelData` (its file `modelData.ts` is not in
the source tree; spec §3, §4.1) is a mapping from component identifier to
an opaque value, where `get` returns absent if never set and a `set`
replaces the value.  Only the untracked accessors
`getComponentUnchecked`/`setComponentUnchecked` used by
`TaskInstruction.transferOutput` are needed here. -/
def ModelData (V : Type u) := ModelComponent → Option V

/-- Modelled from the spec: `ModelData.getComponentUnchecked` — lookup,
absent when never set. -/
def getComponentUnchecked {V : Type u} (m : ModelData V)
    (component : ModelComponent) : Option V :=
  m component

/-- Modelled from the spec: `ModelData.setComponentUnchecked` — replace
the value of one component, bypassing change tracking.  The stored value
may be absent, as when copying an absent source value. -/
def setComponentUnchecked {V : Type u} (m : ModelData V)
    (component : ModelComponent) (v : Option V) : ModelData V :=
  fun x => if x = component then v else m x

/-- `typescript-collections` `Dictionary.getValue`, for dictionaries
keyed by instruction index (the source's dictionaries hash instructions
by their `toString`, which is determined by the instruction's `index`). -/
def dictGetValue {A : Type u} (d : List (Nat × A)) (k : Nat) : Option A :=
  (d.find? (fun p => p.1 = k)).map (fun p => p.2)

/-- `typescript-collections` `Dictionary.setValue`: replace the value of
an existing key, or append a new binding. -/
def dictSetValue {A : Type u} (d : List (Nat × A)) (k : Nat) (v : A) :
    List (Nat × A) :=
  if (d.find? (fun p => p.1 = k)).isSome then
    d.map (fun p => if p.1 = k then (k, v) else p)
  else
    d ++ [(k, v)]

/-- `typescript-collections` `Set.add`: add an element unless already
present. -/
def setAdd {A : Type u} [DecidableEq A] (s : List A) (x : A) : List A :=
  if x ∈ s then s else s ++ [x]

/-- `TaskInstruction`: one DAG node.  The opaque task is irrelevant to the
embedded operations and omitted; `dependencies` maps a predecessor's
index to the set of components it supplies, `invertedDependencies` is the
set of successors' indices. -/
structure TaskInstruction (V : Type u) where
  index : Nat
  data : ModelData V
  dependencies : List (Nat × List ModelComponent)
  invertedDependencies : List Nat

/-- `TaskInstruction.generateInstructionIndex`: return the current
counter and advance it.  The source advances with
`(taskCounter + 1) % (1 << 31 - 1)`, and TypeScript parses `1 << 31 - 1`
as `1 << (31 - 1)` (binary `-` binds tighter than `<<`), so the counter
wraps modulo `2 ^ 30`. -/
def generateInstructionIndex (taskCounter : Nat) : Nat × Nat :=
  (taskCounter, (taskCounter + 1) % (1 <<< (31 - 1)))

/-- The static `taskCounter` after `n` constructions, starting at `0`. -/
def taskCounterAfter : Nat → Nat
  | 0 => 0
  | n + 1 => (generateInstructionIndex (taskCounterAfter n)).2

/-- The `index` assigned to the `n`-th constructed instruction
(`0`-based). -/
def instructionIndexAt (n : Nat) : Nat :=
  (generateInstructionIndex (taskCounterAfter n)).1

/-- `TaskInstruction.addDependency`: fetch (or create) the component set
on the edge from `dependency`, add `component` to it, store it back, and
add `self` to `dependency`'s inverted dependencies.  Both updated
instructions are returned (`self` first). -/
def addDependency {V : Type u} (self dependency : TaskInstruction V)
    (component : ModelComponent) : TaskInstruction V × TaskInstruction V :=
  let componentSet :=
    match dictGetValue self.dependencies dependency.index with
    | none => []
    | some s => s
  let componentSet := setAdd componentSet component
  ({ self with
      dependencies := dictSetValue self.dependencies dependency.index componentSet },
   { dependency with
      invertedDependencies := setAdd dependency.invertedDependencies self.index })

/-- `TaskInstruction.transferOutput`: look up the components the target
expects from `self`; fail when the target has no dependency on `self`;
otherwise copy each such component of `self`'s data into the target's
data with `setComponentUnchecked`.  The updated target is returned
(`self` is not modified). -/
def transferOutput {V : Type u} (self target : TaskInstruction V) :
    Except String (TaskInstruction V) :=
  match dictGetValue target.dependencies self.index with
  | none => .error "Cannot transfer components to independent instruction."
  | some componentsToTransfer =>
    .ok { target with
      data := componentsToTransfer.foldl
        (fun m component =>
          setComponentUnchecked m component
            (getComponentUnchecked self.data component))
        target.data }

/-! ## Priority generator

The implementation file (`priorityPartitionedQueue.ts`) is not in the
source tree; only its unit tests are.  The generator is modelled from the
spec (§4.3) and validated below against the test expectations in the
repository's test suite. -/

/-- Modelled from the spec: the `PriorityGenerator` state — the tracked
range `[lo, hi]` (both default `0`), the length `step` of the current
descending run (initially `1`) and the next value `current` to emit
(initially `hi`). -/
structure PriorityGenerator where
  hi : Int
  lo : Int
  step : Int
  current : Int

/-- Modelled from the spec: a fresh `PriorityGenerator`. -/
def PriorityGenerator.fresh : PriorityGenerator :=
  { hi := 0, lo := 0, step := 1, current := 0 }

/-- Modelled from the spec: `notifyPriorityExists(p)` enlarges the
tracked range to include `p` and, on an enlargement, resets `step := 1`
and `current := hi`; calls with in-range priorities are no-ops. -/
def PriorityGenerator.notifyPriorityExists (g : PriorityGenerator)
    (p : Int) : PriorityGenerator :=
  if p > g.hi || p < g.lo then
    let hi := max g.hi p
    let lo := min g.lo p
    { hi := hi, lo := lo, step := 1, current := hi }
  else g

/-- Modelled from the spec: `next()` emits `current`; then either steps
`current` down (while `current > hi - step + 1` and `current > lo`) or
lengthens the run (`step + 1`, wrapping to `1` past `hi - lo + 1`) and
restarts at `hi`. -/
def PriorityGenerator.next (g : PriorityGenerator) :
    Int × PriorityGenerator :=
  let emitted := g.current
  if g.current > g.hi - g.step + 1 && g.current > g.lo then
    (emitted, { g with current := g.current - 1 })
  else
    let step := g.step + 1
    let step := if step > g.hi - g.lo + 1 then 1 else step
    (emitted, { g with step := step, current := g.hi })

/-- The first `n` values produced by repeated calls to `next()`. -/
def PriorityGenerator.nextN : Nat → PriorityGenerator → List Int
  | 0, _ => []
  | n + 1, g =>
    let (v, g1) := g.next
    v :: PriorityGenerator.nextN n g1

/-! ## Helper definitions for the theorems -/

/-- The repositioning `acquire` performs when it moves the capsule from
`cur` to `target`: undo along the current-instant-to-ancestor path,
then redo along the reversed target-to-ancestor path. -/
def gotoData {T : Type u} (c : Capsule T) (cur target : Instant) (d : T) : T :=
  let ancestor := findLastCommonAncestor target cur
  ((pathToAncestor target ancestor).reverse).foldl (fun d i => instantRedo c i d)
    ((pathToAncestor cur ancestor).foldl (fun d i => instantUndo c i d) d)

/-- Iterating the `parent` link (`List.tail`) of an instant. -/
def parentIterate : Nat → Instant → Instant
  | 0, i => i
  | k + 1, i => parentIterate k i.tail

/-- A concrete capsule over `Int` used by the witnesses: edit `e` redoes
by adding `e + 1` and undoes by subtracting it. -/
def witnessCapsule : Capsule Int :=
  { redoOf := fun e t => t + (e + 1), undoOf := fun e t => t - (e + 1) }

/-! ## Lemmas about the ancestor search -/

lemma climbToGeneration_eq_drop (l : Instant) (n : Nat) :
    climbToGeneration l n = l.drop (l.length - n) := by
  induction l with
  | nil => simp [climbToGeneration]
  | cons e p ih =>
    by_cases h : p.length + 1 > n
    · have h1 : p.length + 1 - n = (p.length - n) + 1 := by omega
      simp only [climbToGeneration, if_pos h, List.length_cons, h1,
        List.drop_succ_cons, ih]
    · have h1 : p.length + 1 - n = 0 := by omega
      simp only [climbToGeneration, if_neg h, List.length_cons, h1,
        List.drop_zero]

lemma climbToGeneration_length (l : Instant) (n : Nat) :
    (climbToGeneration l n).length = min l.length n := by
  rw [climbToGeneration_eq_drop, List.length_drop]
  omega

lemma lockstepClimb_nil_left (s : Instant) : lockstepClimb [] s = [] := by
  rw [lockstepClimb.eq_def]
  cases s with
  | nil => rw [if_pos rfl]
  | cons b sp => rw [if_neg (by simp)]

lemma lockstepClimb_nil_right (f : Instant) : lockstepClimb f [] = [] := by
  rw [lockstepClimb.eq_def]
  cases f with
  | nil => rw [if_pos rfl]
  | cons a fp => rw [if_neg (by simp)]

lemma lockstepClimb_cons (a : Nat) (fp : Instant) (b : Nat) (sp : Instant) :
    lockstepClimb (a :: fp) (b :: sp) =
      if (a :: fp) = (b :: sp) then a :: fp else lockstepClimb fp sp := by
  rw [lockstepClimb.eq_def]

lemma lockstepClimb_self (a : Instant) : lockstepClimb a a = a := by
  rw [lockstepClimb.eq_def, if_pos rfl]

lemma lockstepClimb_comm (f s : Instant) : lockstepClimb f s = lockstepClimb s f := by
  induction f generalizing s with
  | nil => rw [lockstepClimb_nil_left, lockstepClimb_nil_right]
  | cons a fp ih =>
    cases s with
    | nil => rw [lockstepClimb_nil_left, lockstepClimb_nil_right]
    | cons b sp =>
      rw [lockstepClimb_cons, lockstepClimb_cons]
      by_cases h : (a :: fp) = (b :: sp)
      · rw [if_pos h, if_pos h.symm, h]
      · rw [if_neg h, if_neg (fun hc => h hc.symm)]
        exact ih sp

lemma lockstepClimb_suffix (f s : Instant) :
    List.IsSuffix (lockstepClimb f s) f ∧ List.IsSuffix (lockstepClimb f s) s := by
  induction f generalizing s with
  | nil =>
    rw [lockstepClimb_nil_left]
    exact ⟨List.nil_suffix, List.nil_suffix⟩
  | cons a fp ih =>
    cases s with
    | nil =>
      rw [lockstepClimb_nil_right]
      exact ⟨List.nil_suffix, List.nil_suffix⟩
    | cons b sp =>
      rw [lockstepClimb_cons]
      by_cases h : (a :: fp) = (b :: sp)
      · rw [if_pos h]
        exact ⟨List.suffix_refl _, h ▸ List.suffix_refl _⟩
      · rw [if_neg h]
        obtain ⟨h1, h2⟩ := ih sp
        exact ⟨h1.trans (List.suffix_cons a fp), h2.trans (List.suffix_cons b sp)⟩

lemma findLastCommonAncestor_def (a b : Instant) :
    findLastCommonAncestor a b =
      lockstepClimb (climbToGeneration a b.length)
        (climbToGeneration b (climbToGeneration a b.length).length) := rfl

lemma findLastCommonAncestor_suffix (a b : Instant) :
    List.IsSuffix (findLastCommonAncestor a b) a ∧
    List.IsSuffix (findLastCommonAncestor a b) b := by
  rw [findLastCommonAncestor_def]
  obtain ⟨h1, h2⟩ := lockstepClimb_suffix (climbToGeneration a b.length)
    (climbToGeneration b (climbToGeneration a b.length).length)
  constructor
  · exact h1.trans (climbToGeneration_eq_drop a b.length ▸ List.drop_suffix _ _)
  · exact h2.trans (climbToGeneration_eq_drop b _ ▸ List.drop_suffix _ _)

lemma findLastCommonAncestor_comm (a b : Instant) :
    findLastCommonAncestor a b = findLastCommonAncestor b a := by
  rw [findLastCommonAncestor_def, findLastCommonAncestor_def]
  simp only [climbToGeneration_eq_drop, List.length_drop]
  have ha : a.length - (b.length - (b.length - a.length)) =
      a.length - b.length := by omega
  have hb : b.length - (a.length - (a.length - b.length)) =
      b.length - a.length := by omega
  rw [ha, hb]
  exact lockstepClimb_comm _ _

lemma findLastCommonAncestor_self (a : Instant) :
    findLastCommonAncestor a a = a := by
  rw [findLastCommonAncestor_def]
  simp only [climbToGeneration_eq_drop, Nat.sub_self, List.drop_zero]
  exact lockstepClimb_self a

/-! ## Lemmas about paths to an ancestor -/

lemma pathToAncestor_self (a : Instant) : pathToAncestor a a = [] := by
  rw [pathToAncestor.eq_def, if_pos rfl]

lemma pathToAncestor_cons (e : Nat) (p ancestor : Instant)
    (h : (e :: p) ≠ ancestor) :
    pathToAncestor (e :: p) ancestor = (e :: p) :: pathToAncestor p ancestor := by
  rw [pathToAncestor.eq_def, if_neg h]

lemma cons_append_ne_self (e : Nat) (px L : Instant) : (e :: px ++ L) ≠ L := by
  intro h
  have hlen := congrArg List.length h
  simp only [List.length_cons, List.length_append] at hlen
  omega

lemma pathToAncestor_append_length (px L : Instant) :
    (pathToAncestor (px ++ L) L).length = px.length := by
  induction px with
  | nil => simp [pathToAncestor_self]
  | cons e px ih =>
    rw [List.cons_append, pathToAncestor_cons e (px ++ L) L (cons_append_ne_self e px L)]
    simp [ih]

lemma foldl_instantUndo_path {T : Type u} (c : Capsule T) (px L : Instant) (d : T) :
    (pathToAncestor (px ++ L) L).foldl (fun d i => instantUndo c i d) d =
    px.foldl (fun d e => c.undoOf e d) d := by
  induction px generalizing d with
  | nil => simp [pathToAncestor_self]
  | cons e px ih =>
    rw [List.cons_append, pathToAncestor_cons e (px ++ L) L (cons_append_ne_self e px L)]
    simp only [List.foldl_cons]
    exact ih (c.undoOf e d)

lemma foldl_instantRedo_path {T : Type u} (c : Capsule T) (px L : Instant) (d : T) :
    ((pathToAncestor (px ++ L) L).reverse).foldl (fun d i => instantRedo c i d) d =
    px.foldr (fun e d => c.redoOf e d) d := by
  induction px generalizing d with
  | nil => simp [pathToAncestor_self]
  | cons e px ih =>
    rw [List.cons_append, pathToAncestor_cons e (px ++ L) L (cons_append_ne_self e px L)]
    rw [List.reverse_cons, List.foldl_append, ih d]
    simp [instantRedo]

lemma parentIterate_append (t L : Instant) :
    parentIterate t.length (t ++ L) = L := by
  induction t with
  | nil => rfl
  | cons e t ih =>
    simpa [parentIterate] using ih

/-! ## Inverse-cancellation lemmas for the round trip -/

lemma foldl_undo_foldr_redo {T : Type u} (c : Capsule T)
    (h : ∀ e t, c.undoOf e (c.redoOf e t) = t) (es : List Nat) (d : T) :
    es.foldl (fun d e => c.undoOf e d)
      (es.foldr (fun e d => c.redoOf e d) d) = d := by
  induction es with
  | nil => rfl
  | cons e es ih =>
    simp only [List.foldr_cons, List.foldl_cons, h]
    exact ih

lemma foldr_redo_foldl_undo {T : Type u} (c : Capsule T)
    (h : ∀ e t, c.redoOf e (c.undoOf e t) = t) (es : List Nat) (d : T) :
    es.foldr (fun e d => c.redoOf e d)
      (es.foldl (fun d e => c.undoOf e d) d) = d := by
  induction es generalizing d with
  | nil => rfl
  | cons e es ih =>
    simp only [List.foldr_cons, List.foldl_cons]
    rw [ih (c.undoOf e d)]
    exact h e d

/-! ## The repositioning performed by `acquire` -/

lemma gotoData_def {T : Type u} (c : Capsule T) (cur target : Instant) (d : T) :
    gotoData c cur target d =
      ((pathToAncestor target (findLastCommonAncestor target cur)).reverse).foldl
        (fun d i => instantRedo c i d)
        ((pathToAncestor cur (findLastCommonAncestor target cur)).foldl
          (fun d i => instantUndo c i d) d) := rfl

lemma gotoData_self {T : Type u} (c : Capsule T) (X : Instant) (d : T) :
    gotoData c X X d = d := by
  rw [gotoData_def, findLastCommonAncestor_self, pathToAncestor_self]
  rfl

lemma acquire_of_count_zero {T : Type u} (c : Capsule T) (X : Instant)
    (st : CapsuleState T) (h : st.acquisitionCount = 0) :
    acquire c X st = .ok (gotoData c st.currentInstant X st.data,
      { data := gotoData c st.currentInstant X st.data,
        currentInstant := X, acquisitionCount := 1 }) := by
  by_cases hcur : st.currentInstant = X
  · unfold acquire
    rw [if_pos hcur, hcur, gotoData_self, h]
  · unfold acquire
    rw [if_neg hcur, if_neg (show ¬ st.acquisitionCount > 0 by omega), h]
    rfl

lemma gotoData_round_trip {T : Type u} (c : Capsule T)
    (h1 : ∀ e t, c.undoOf e (c.redoOf e t) = t)
    (h2 : ∀ e t, c.redoOf e (c.undoOf e t) = t)
    (X Y : Instant) (d : T) :
    gotoData c Y X (gotoData c X Y d) = d := by
  obtain ⟨py, hpy⟩ := (findLastCommonAncestor_suffix Y X).1
  obtain ⟨px, hpx⟩ := (findLastCommonAncestor_suffix Y X).2
  rw [gotoData_def, gotoData_def, findLastCommonAncestor_comm X Y]
  set L := findLastCommonAncestor Y X with hL
  rw [← hpy, ← hpx, foldl_instantUndo_path, foldl_instantRedo_path,
    foldl_instantUndo_path, foldl_instantRedo_path,
    foldl_undo_foldr_redo c h1, foldr_redo_foldl_undo c h2]

lemma query_eq_of_acquire_ok {T : Type u} {R : Type v} (c : Capsule T)
    (X : Instant) (fn : T → Except String R) (st : CapsuleState T)
    (d : T) (st1 : CapsuleState T) (ha : acquire c X st = .ok (d, st1)) :
    query c X fn st =
      match fn d with
      | .error e => (st1, .error e)
      | .ok r =>
        match release X st1 with
        | .error e => (st1, .error e)
        | .ok st2 => (st2, .ok r) := by
  unfold query
  rw [ha]

/-- C3: for an instant `X` with `currentInstant ≠ X` and acquisition
count zero, `acquire` computes the last common ancestor `L` of `X` and
the current instant (by the generation walk embedded in
`findLastCommonAncestor`), applies the `undo` thunks of the instants on
the current-instant-to-`L` path nearest-first (the left fold over the
edits `pcur` above `L`), then the `redo` thunks of the instants on the
`X`-to-`L` path ancestor-near first (the right fold over the edits `px`
above `L`), and finally sets the current instant to `X` and increments
the acquisition count by one. -/
theorem acquire_undo_redo_along_ancestor_paths {T : Type u} (c : Capsule T)
    (X : Instant) (st : CapsuleState T)
    (hne : st.currentInstant ≠ X) (hcnt : st.acquisitionCount = 0) :
    ∃ px pcur,
      X = px ++ findLastCommonAncestor X st.currentInstant ∧
      st.currentInstant = pcur ++ findLastCommonAncestor X st.currentInstant ∧
      acquire c X st =
        .ok (px.foldr (fun e d => c.redoOf e d)
               (pcur.foldl (fun d e => c.undoOf e d) st.data),
             { data := px.foldr (fun e d => c.redoOf e d)
                 (pcur.foldl (fun d e => c.undoOf e d) st.data),
               currentInstant := X,
               acquisitionCount := st.acquisitionCount + 1 }) := by
  obtain ⟨px, hpx⟩ := (findLastCommonAncestor_suffix X st.currentInstant).1
  obtain ⟨pcur, hpcur⟩ := (findLastCommonAncestor_suffix X st.currentInstant).2
  refine ⟨px, pcur, hpx.symm, hpcur.symm, ?_⟩
  rw [acquire_of_count_zero c X st hcnt, hcnt, gotoData_def]
  set L := findLastCommonAncestor X st.currentInstant with hL
  rw [show pathToAncestor st.currentInstant L = pathToAncestor (pcur ++ L) L by rw [hpcur],
    show pathToAncestor X L = pathToAncestor (px ++ L) L by rw [hpx],
    foldl_instantUndo_path, foldl_instantRedo_path]

/-- C3 (witness): on the capsule whose edit `e` adds `e + 1`, moving from
current instant `[0]` with count `0` to instant `[1]` undoes edit `0` and
redoes edit `1`, producing data `(0 - 1) + 2 = 1` at instant `[1]` with
count `1`. -/
theorem acquire_undo_redo_along_ancestor_paths_witness :
    ([0] : Instant) ≠ [1] ∧ (0 : Nat) = 0 ∧
    ∃ px pcur,
      ([1] : Instant) = px ++ findLastCommonAncestor [1] ([0] : Instant) ∧
      ([0] : Instant) = pcur ++ findLastCommonAncestor [1] ([0] : Instant) ∧
      acquire witnessCapsule [1]
          { data := (0 : Int), currentInstant := [0], acquisitionCount := 0 } =
        .ok (px.foldr (fun e d => witnessCapsule.redoOf e d)
               (pcur.foldl (fun d e => witnessCapsule.undoOf e d) (0 : Int)),
             { data := px.foldr (fun e d => witnessCapsule.redoOf e d)
                 (pcur.foldl (fun d e => witnessCapsule.undoOf e d) (0 : Int)),
               currentInstant := [1],
               acquisitionCount := 0 + 1 }) :=
  ⟨by decide, rfl,
   acquire_undo_redo_along_ancestor_paths witnessCapsule [1]
     { data := (0 : Int), currentInstant := [0], acquisitionCount := 0 }
     (by decide) rfl⟩

/-- C10: for any two instants of one capsule (in this embedding every
instant is a path from the root, so reachability by parent links and
`generation = depth` hold by construction), `findLastCommonAncestor`
returns a common ancestor of both: a suffix of each, reached from each by
iterating the parent link exactly `generation − generation(ancestor)`
times; consequently each `pathToAncestor` walk performed by `acquire` has
exactly that finite length, so `acquire` terminates (it is a total
function of this embedding). -/
theorem findLastCommonAncestor_terminates_with_common_ancestor (a b : Instant) :
    List.IsSuffix (findLastCommonAncestor a b) a ∧
    List.IsSuffix (findLastCommonAncestor a b) b ∧
    parentIterate (a.length - (findLastCommonAncestor a b).length) a =
      findLastCommonAncestor a b ∧
    parentIterate (b.length - (findLastCommonAncestor a b).length) b =
      findLastCommonAncestor a b ∧
    (pathToAncestor a (findLastCommonAncestor a b)).length =
      a.length - (findLastCommonAncestor a b).length ∧
    (pathToAncestor b (findLastCommonAncestor a b)).length =
      b.length - (findLastCommonAncestor a b).length := by
  obtain ⟨hsa, hsb⟩ := findLastCommonAncestor_suffix a b
  obtain ⟨pa, hpa⟩ := hsa
  obtain ⟨pb, hpb⟩ := hsb
  set L := findLastCommonAncestor a b with hL
  refine ⟨⟨pa, hpa⟩, ⟨pb, hpb⟩, ?_, ?_, ?_, ?_⟩
  · rw [← hpa]
    have hlen : (pa ++ L).length - L.length = pa.length := by
      rw [List.length_append]; omega
    rw [hlen]
    exact parentIterate_append pa L
  · rw [← hpb]
    have hlen : (pb ++ L).length - L.length = pb.length := by
      rw [List.length_append]; omega
    rw [hlen]
    exact parentIterate_append pb L
  · rw [← hpa, pathToAncestor_append_length, List.length_append]
    omega
  · rw [← hpb, pathToAncestor_append_length, List.length_append]
    omega

/-- C6: for any two instants `X` and `Y` of one capsule, if every edit's
undo thunk is a two-sided inverse of its redo thunk and nothing else
mutates the shared data, then `acquire X`, `release`, `acquire Y`,
`release`, `acquire X` all succeed from any state with acquisition count
zero, and the data returned by the final `acquire X` equals the data
returned by the first. -/
theorem capsule_round_trip {T : Type u} (c : Capsule T) (X Y : Instant)
    (st0 : CapsuleState T)
    (h1 : ∀ e t, c.undoOf e (c.redoOf e t) = t)
    (h2 : ∀ e t, c.redoOf e (c.undoOf e t) = t)
    (hcnt : st0.acquisitionCount = 0) :
    ∃ d1 st1 st2 d2 st3 st4 d3 st5,
      acquire c X st0 = .ok (d1, st1) ∧
      release X st1 = .ok st2 ∧
      acquire c Y st2 = .ok (d2, st3) ∧
      release Y st3 = .ok st4 ∧
      acquire c X st4 = .ok (d3, st5) ∧
      d3 = d1 := by
  refine ⟨gotoData c st0.currentInstant X st0.data,
    { data := gotoData c st0.currentInstant X st0.data,
      currentInstant := X, acquisitionCount := 1 },
    { data := gotoData c st0.currentInstant X st0.data,
      currentInstant := X, acquisitionCount := 0 },
    gotoData c X Y (gotoData c st0.currentInstant X st0.data),
    { data := gotoData c X Y (gotoData c st0.currentInstant X st0.data),
      currentInstant := Y, acquisitionCount := 1 },
    { data := gotoData c X Y (gotoData c st0.currentInstant X st0.data),
      currentInstant := Y, acquisitionCount := 0 },
    gotoData c Y X (gotoData c X Y (gotoData c st0.currentInstant X st0.data)),
    { data := gotoData c Y X (gotoData c X Y (gotoData c st0.currentInstant X st0.data)),
      currentInstant := X, acquisitionCount := 1 },
    acquire_of_count_zero c X st0 hcnt, ?_, ?_, ?_, ?_, ?_⟩
  · unfold release
    rw [if_neg (by simp), if_neg (by simp)]
    rfl
  · exact acquire_of_count_zero c Y _ rfl
  · unfold release
    rw [if_neg (by simp), if_neg (by simp)]
    rfl
  · exact acquire_of_count_zero c X _ rfl
  · exact gotoData_round_trip c h1 h2 X Y _

/-- C6 (witness): the round trip between instants `[0]` and `[1]` of the
inverse-edit capsule over `Int`, starting from the root state. -/
theorem capsule_round_trip_witness :
    (∀ e t, witnessCapsule.undoOf e (witnessCapsule.redoOf e t) = t) ∧
    (∀ e t, witnessCapsule.redoOf e (witnessCapsule.undoOf e t) = t) ∧
    (createState (0 : Int)).acquisitionCount = 0 ∧
    ∃ d1 st1 st2 d2 st3 st4 d3 st5,
      acquire witnessCapsule [0] (createState (0 : Int)) = .ok (d1, st1) ∧
      release [0] st1 = .ok st2 ∧
      acquire witnessCapsule [1] st2 = .ok (d2, st3) ∧
      release [1] st3 = .ok st4 ∧
      acquire witnessCapsule [0] st4 = .ok (d3, st5) ∧
      d3 = d1 :=
  ⟨fun e t => by simp [witnessCapsule],
   fun e t => by simp [witnessCapsule],
   rfl,
   capsule_round_trip witnessCapsule [0] [1] (createState (0 : Int))
     (fun e t => by simp [witnessCapsule])
     (fun e t => by simp [witnessCapsule]) rfl⟩

/-- C1 (counterexample): `query` performs no `try`/`finally`, so when the
function raises, the `release` is skipped: on the root instant of the
`witnessCapsule` state with acquisition count `0`, a `query` whose
function fails leaves the acquisition count at `1`, not at its value
before the call. -/
theorem query_failure_leaks_acquisition :
    (query witnessCapsule []
        (fun _ => (Except.error "boom" : Except String Int))
        (createState (0 : Int))).1.acquisitionCount = 1 ∧
    (createState (0 : Int)).acquisitionCount = 0 ∧
    (1 : Nat) ≠ 0 :=
  ⟨rfl, rfl, by decide⟩

/-- C1 (amended): `query(fn)` acquires the data for the instant, applies
`fn`, and releases only when `fn` returns normally; when `fn` raises, the
exception propagates without a release, so after a failing `query` the
acquisition count is one greater than before the call (here from a state
with count zero, for which the acquire always succeeds). -/
theorem query_releases_only_on_success {T : Type u} {R : Type v}
    (c : Capsule T) (X : Instant) (fn : T → Except String R)
    (st : CapsuleState T) (hcnt : st.acquisitionCount = 0) :
    ∃ d st1, acquire c X st = .ok (d, st1) ∧
      st1.acquisitionCount = st.acquisitionCount + 1 ∧
      (∀ e, fn d = .error e → query c X fn st = (st1, .error e)) ∧
      (∀ r, fn d = .ok r →
        query c X fn st =
          ({ st1 with acquisitionCount := st.acquisitionCount }, .ok r)) := by
  refine ⟨gotoData c st.currentInstant X st.data,
    { data := gotoData c st.currentInstant X st.data,
      currentInstant := X, acquisitionCount := 1 },
    acquire_of_count_zero c X st hcnt, by rw [hcnt], ?_, ?_⟩
  · intro e he
    rw [query_eq_of_acquire_ok c X fn st _ _ (acquire_of_count_zero c X st hcnt), he]
  · intro r hr
    rw [query_eq_of_acquire_ok c X fn st _ _ (acquire_of_count_zero c X st hcnt), hr]
    have hrel : release X
        { data := gotoData c st.currentInstant X st.data,
          currentInstant := X, acquisitionCount := 1 } =
        .ok { data := gotoData c st.currentInstant X st.data,
              currentInstant := X, acquisitionCount := 0 } := by
      unfold release
      rw [if_neg (by simp), if_neg (by simp)]
      rfl
    rw [hrel, hcnt]

/-- C1 (amended, witness): on the root instant with count `0`, a failing
`query` ends with count `1` and propagates the error, and a succeeding
`query` ends with count `0` and returns the function's result. -/
theorem query_releases_only_on_success_witness :
    (createState (0 : Int)).acquisitionCount = 0 ∧
    ∃ d st1,
      acquire witnessCapsule [] (createState (0 : Int)) = .ok (d, st1) ∧
      st1.acquisitionCount = (createState (0 : Int)).acquisitionCount + 1 ∧
      (∀ e, (fun _ => (Except.error "boom" : Except String Int)) d = .error e →
        query witnessCapsule [] (fun _ => (Except.error "boom" : Except String Int))
          (createState (0 : Int)) = (st1, .error e)) ∧
      (∀ r, (fun _ => (Except.error "boom" : Except String Int)) d = .ok r →
        query witnessCapsule [] (fun _ => (Except.error "boom" : Except String Int))
          (createState (0 : Int)) =
          ({ st1 with acquisitionCount := (createState (0 : Int)).acquisitionCount },
           .ok r)) :=
  ⟨rfl,
   query_releases_only_on_success witnessCapsule []
     (fun _ => (Except.error "boom" : Except String Int))
     (createState (0 : Int)) rfl⟩

/-! ## Lemmas about the dictionary and set operations -/

lemma dictGetValue_cons {A : Type u} (a : Nat × A) (d : List (Nat × A)) (k : Nat) :
    dictGetValue (a :: d) k = if a.1 = k then some a.2 else dictGetValue d k := by
  unfold dictGetValue
  by_cases h : a.1 = k
  · rw [List.find?_cons_of_pos _ (by simp [h]), if_pos h]
    rfl
  · rw [List.find?_cons_of_neg _ (by simp [h]), if_neg h]

lemma dictGetValue_map_replace_ne {A : Type u} (d : List (Nat × A)) (k : Nat)
    (v : A) (x : Nat) (hx : x ≠ k) :
    dictGetValue (d.map (fun p => if p.1 = k then (k, v) else p)) x =
      dictGetValue d x := by
  induction d with
  | nil => rfl
  | cons a d ih =>
    rw [List.map_cons]
    by_cases h : a.1 = k
    · rw [if_pos h, dictGetValue_cons, dictGetValue_cons,
        if_neg (show ¬ ((k, v) : Nat × A).1 = x from fun hc => hx hc.symm),
        if_neg (show ¬ a.1 = x from fun hc => hx (hc.symm.trans h))]
      exact ih
    · rw [if_neg h, dictGetValue_cons, dictGetValue_cons]
      by_cases h2 : a.1 = x
      · rw [if_pos h2, if_pos h2]
      · rw [if_neg h2, if_neg h2]
        exact ih

lemma dictGetValue_map_replace_self {A : Type u} (d : List (Nat × A)) (k : Nat)
    (v : A) (h : (d.find? (fun p => p.1 = k)).isSome) :
    dictGetValue (d.map (fun p => if p.1 = k then (k, v) else p)) k = some v := by
  induction d with
  | nil => simp [List.find?] at h
  | cons a d ih =>
    rw [List.map_cons]
    by_cases ha : a.1 = k
    · rw [if_pos ha, dictGetValue_cons, if_pos rfl]
    · rw [if_neg ha, dictGetValue_cons, if_neg ha]
      apply ih
      rwa [List.find?_cons_of_neg _ (by simp [ha])] at h

lemma dictGetValue_dictSetValue {A : Type u} (d : List (Nat × A)) (k : Nat)
    (v : A) (x : Nat) :
    dictGetValue (dictSetValue d k v) x =
      if x = k then some v else dictGetValue d x := by
  unfold dictSetValue
  by_cases h : (d.find? (fun p => p.1 = k)).isSome
  · rw [if_pos h]
    by_cases hx : x = k
    · subst hx
      rw [if_pos rfl]
      exact dictGetValue_map_replace_self d x v h
    · rw [if_neg hx]
      exact dictGetValue_map_replace_ne d k v x hx
  · rw [if_neg h]
    by_cases hx : x = k
    · subst hx
      have hnone : d.find? (fun p => p.1 = x) = none :=
        Option.not_isSome_iff_eq_none.mp h
      unfold dictGetValue
      rw [List.find?_append, hnone, if_pos rfl]
      simp [List.find?]
    · rw [if_neg hx]
      unfold dictGetValue
      rw [List.find?_append]
      have hsing : ([(k, v)] : List (Nat × A)).find? (fun p => p.1 = x) = none := by
        rw [List.find?_cons_of_neg _ (by simp [Ne.symm hx])]
        rfl
      rw [hsing]
      simp

lemma mem_setAdd {A : Type u} [DecidableEq A] (s : List A) (y x : A) :
    x ∈ setAdd s y ↔ x = y ∨ x ∈ s := by
  unfold setAdd
  by_cases h : y ∈ s
  · rw [if_pos h]
    constructor
    · exact Or.inr
    · rintro (rfl | hx)
      · exact h
      · exact hx
  · rw [if_neg h]
    simp [List.mem_append, or_comm]

lemma transferFold_apply {V : Type u} (src : ModelData V)
    (cs : List ModelComponent) (m : ModelData V) (x : ModelComponent) :
    (cs.foldl (fun m comp =>
      setComponentUnchecked m comp (getComponentUnchecked src comp)) m) x =
    if x ∈ cs then src x else m x := by
  induction cs generalizing m with
  | nil => simp
  | cons cHead rest ih =>
    rw [List.foldl_cons, ih]
    by_cases hx : x ∈ rest
    · rw [if_pos hx, if_pos (List.mem_cons_of_mem _ hx)]
    · rw [if_neg hx]
      unfold setComponentUnchecked getComponentUnchecked
      by_cases hc : x = cHead
      · rw [if_pos hc, if_pos (by simp [hc]), hc]
      · rw [if_neg hc, if_neg (by simp [hc, hx])]

/-- C8: `transferOutput I S` raises an error if and only if `S`'s
dependency map has no entry for `I`; otherwise it copies, for exactly
each component on the edge `S.dependencies[I]`, the value of that
component in `I`'s data into `S`'s data, leaves every other component of
`S`'s data and `S`'s remaining fields unchanged, and returns only an
updated `S` (in the source it writes only through
`target.data.setComponentUnchecked`, never into `I`). -/
theorem transferOutput_error_iff_and_copies {V : Type u}
    (I S : TaskInstruction V) :
    ((∃ e, transferOutput I S = .error e) ↔
      dictGetValue S.dependencies I.index = none) ∧
    (∀ cs, dictGetValue S.dependencies I.index = some cs →
      transferOutput I S =
        .ok { S with data := fun x => if x ∈ cs then I.data x else S.data x }) := by
  constructor
  · constructor
    · rintro ⟨e, he⟩
      cases h : dictGetValue S.dependencies I.index with
      | none => rfl
      | some cs =>
        unfold transferOutput at he
        rw [h] at he
        exact absurd he (by simp)
    · intro h
      unfold transferOutput
      rw [h]
      exact ⟨_, rfl⟩
  · intro cs hcs
    unfold transferOutput
    rw [hcs]
    have hdata : (cs.foldl (fun m component =>
        setComponentUnchecked m component (getComponentUnchecked I.data component))
          S.data) =
        (fun x => if x ∈ cs then I.data x else S.data x) :=
      funext (transferFold_apply I.data cs S.data)
    exact congrArg (fun dd => Except.ok { S with data := dd }) hdata

/-- A source instruction for the witnesses: index `0`, component `5`
holds `9`. -/
def instrA : TaskInstruction Nat :=
  { index := 0, data := fun x => if x = 5 then some 9 else none,
    dependencies := [], invertedDependencies := [] }

/-- A target instruction for the witnesses: index `1`, empty data, and a
dependency edge from instruction `0` carrying component `5`. -/
def instrB : TaskInstruction Nat :=
  { index := 1, data := fun _ => none,
    dependencies := [(0, [5])], invertedDependencies := [] }

/-- C8 (witness): transferring to an instruction with no edge from the
source errors, and transferring along the edge `{5}` from `instrA` to
`instrB` copies component `5` and leaves the rest absent. -/
theorem transferOutput_error_iff_and_copies_witness :
    (∃ e, transferOutput instrA instrA = .error e) ∧
    transferOutput instrA instrB =
      .ok { instrB with
        data := fun x => if x ∈ [5] then instrA.data x else instrB.data x } :=
  ⟨((transferOutput_error_iff_and_copies instrA instrA).1).mpr rfl,
   (transferOutput_error_iff_and_copies instrA instrB).2 [5] rfl⟩

/-- C9: after `S.addDependency(P, comp)` the edge set `S.dependencies[P]`
consists of `comp` together with every component it contained before,
`S`'s entries for other predecessors are unchanged, and `P`'s inverted
dependencies contain `S` along with everything they contained before —
so the new edge is recorded symmetrically on both endpoints and repeated
calls accumulate components rather than replace them.  (`addDependency`
returns the updated `(S, P)` pair; the two instructions are distinct
objects in the scheduler.) -/
theorem addDependency_accumulates_and_inverts {V : Type u}
    (S P : TaskInstruction V) (comp : ModelComponent) :
    (∀ x, x ∈ (dictGetValue (addDependency S P comp).1.dependencies P.index).getD []
      ↔ (x = comp ∨ x ∈ (dictGetValue S.dependencies P.index).getD [])) ∧
    (∀ k, k ≠ P.index →
      dictGetValue (addDependency S P comp).1.dependencies k =
        dictGetValue S.dependencies k) ∧
    (addDependency S P comp).1.index = S.index ∧
    (addDependency S P comp).1.data = S.data ∧
    S.index ∈ (addDependency S P comp).2.invertedDependencies ∧
    (∀ y, y ∈ P.invertedDependencies →
      y ∈ (addDependency S P comp).2.invertedDependencies) ∧
    (addDependency S P comp).2.index = P.index ∧
    (addDependency S P comp).2.data = P.data ∧
    (addDependency S P comp).2.dependencies = P.dependencies := by
  refine ⟨?_, ?_, rfl, rfl, ?_, ?_, rfl, rfl, rfl⟩
  · intro x
    show x ∈ (dictGetValue (dictSetValue S.dependencies P.index _) P.index).getD [] ↔ _
    rw [dictGetValue_dictSetValue, if_pos rfl, Option.getD_some, mem_setAdd]
    cases h : dictGetValue S.dependencies P.index with
    | none => simp [h]
    | some s => simp [h]
  · intro k hk
    show dictGetValue (dictSetValue S.dependencies P.index _) k = _
    rw [dictGetValue_dictSetValue, if_neg hk]
  · exact (mem_setAdd P.invertedDependencies S.index S.index).mpr (Or.inl rfl)
  · intro y hy
    exact (mem_setAdd P.invertedDependencies S.index y).mpr (Or.inr hy)

/-- C9 (witness): adding a dependency on `instrA` for component `7` to
`instrB` extends the edge `{5}` to `{5, 7}`, keeps other entries, and
records `instrB` in `instrA`'s inverted dependencies. -/
theorem addDependency_accumulates_and_inverts_witness :
    (∀ x, x ∈ (dictGetValue (addDependency instrB instrA 7).1.dependencies
        instrA.index).getD []
      ↔ (x = 7 ∨ x ∈ (dictGetValue instrB.dependencies instrA.index).getD [])) ∧
    (∀ k, k ≠ instrA.index →
      dictGetValue (addDependency instrB instrA 7).1.dependencies k =
        dictGetValue instrB.dependencies k) ∧
    (addDependency instrB instrA 7).1.index = instrB.index ∧
    (addDependency instrB instrA 7).1.data = instrB.data ∧
    instrB.index ∈ (addDependency instrB instrA 7).2.invertedDependencies ∧
    (∀ y, y ∈ instrA.invertedDependencies →
      y ∈ (addDependency instrB instrA 7).2.invertedDependencies) ∧
    (addDependency instrB instrA 7).2.index = instrA.index ∧
    (addDependency instrB instrA 7).2.data = instrA.data ∧
    (addDependency instrB instrA 7).2.dependencies = instrA.dependencies :=
  addDependency_accumulates_and_inverts instrB instrA 7

/-- C7: for a fresh `PriorityGenerator`, after `notifyPriorityExists(3)`
followed by `notifyPriorityExists(-2)`, the first 42 calls to `next()`
return exactly `3, 3,2, 3,2,1, 3,2,1,0, 3,2,1,0,-1, 3,2,1,0,-1,-2` and
then the same 21-value sawtooth of nested descending runs again. -/
theorem priorityGenerator_sequence_neg2_to_3 :
    PriorityGenerator.nextN 42
      ((PriorityGenerator.fresh.notifyPriorityExists 3).notifyPriorityExists (-2)) =
    [3,
     3, 2,
     3, 2, 1,
     3, 2, 1, 0,
     3, 2, 1, 0, -1,
     3, 2, 1, 0, -1, -2,
     3,
     3, 2,
     3, 2, 1,
     3, 2, 1, 0,
     3, 2, 1, 0, -1,
     3, 2, 1, 0, -1, -2] := by
  decide

/-- C2 (counterexample): at counter value `2 ^ 30 - 1` the next
constructed instruction receives index `0`, whereas the claimed wrap
modulus `2 ^ 31 - 1` would give `2 ^ 30` — the source's
`% (1 << 31 - 1)` parses as `% (1 << 30)`. -/
theorem instructionIndex_not_mod_2_pow_31_sub_1 :
    (generateInstructionIndex ((generateInstructionIndex (2 ^ 30 - 1)).2)).1 = 0 ∧
    ((generateInstructionIndex (2 ^ 30 - 1)).1 + 1) % (2 ^ 31 - 1) = 2 ^ 30 ∧
    (0 : Nat) ≠ 2 ^ 30 := by
  refine ⟨rfl, rfl, ?_⟩
  decide

/-- C2 (amended): instruction indices assigned by successive
`TaskInstruction` constructions increase by one modulo `2 ^ 30` — each
new instruction's index is the previous index plus one, reduced modulo
`2 ^ 30` (the source's `1 << 31 - 1` parses as `1 << (31 - 1)`). -/
theorem instructionIndex_succ_mod_2_pow_30 (n : Nat) :
    instructionIndexAt (n + 1) = (instructionIndexAt n + 1) % (2 ^ 30) := by
  show taskCounterAfter (n + 1) = (taskCounterAfter n + 1) % (2 ^ 30)
  rfl

/-- C2 (amended, witness): the index after the index `0` is `1`. -/
theorem instructionIndex_succ_mod_2_pow_30_witness :
    instructionIndexAt (0 + 1) = (instructionIndexAt 0 + 1) % (2 ^ 30) :=
  instructionIndex_succ_mod_2_pow_30 0

/-- C4: `acquire` on instant `X` raises an error if and only if the
current instant differs from `X` and the acquisition count is non-zero;
when the current instant already equals `X`, it increments the count by
one and returns the shared data, leaving the data and the current instant
unchanged. -/
theorem acquire_error_iff_and_same_instant {T : Type u} (c : Capsule T)
    (X : Instant) (st : CapsuleState T) :
    ((∃ e, acquire c X st = .error e) ↔
      (st.currentInstant ≠ X ∧ st.acquisitionCount ≠ 0)) ∧
    (st.currentInstant = X →
      acquire c X st =
        .ok (st.data, { st with acquisitionCount := st.acquisitionCount + 1 })) := by
  unfold acquire
  by_cases hcur : st.currentInstant = X
  · simp [hcur]
  · by_cases hcnt : st.acquisitionCount = 0
    · simp [hcur, hcnt]
    · have : st.acquisitionCount > 0 := Nat.pos_of_ne_zero hcnt
      simp [hcur, hcnt, this]

/-- C4 (witness): on a state acquired at the root with count `1`,
`acquire` on a child instant errors, and `acquire` on the root itself
returns the data with count `2`. -/
theorem acquire_error_iff_and_same_instant_witness :
    (∃ e, acquire { redoOf := fun _ t => t, undoOf := fun _ t => t }
        [0] { data := (7 : Nat), currentInstant := [], acquisitionCount := 1 }
        = .error e) ∧
    acquire { redoOf := fun _ t => t, undoOf := fun _ t => t }
        [] { data := (7 : Nat), currentInstant := [], acquisitionCount := 1 }
        = .ok (7, { data := 7, currentInstant := [], acquisitionCount := 2 }) :=
  ⟨((acquire_error_iff_and_same_instant _ [0]
      { data := 7, currentInstant := [], acquisitionCount := 1 }).1).mpr
      ⟨by decide, by decide⟩,
   (acquire_error_iff_and_same_instant _ []
      { data := 7, currentInstant := [], acquisitionCount := 1 }).2 rfl⟩

/-- C5: `release` on instant `X` raises an error if and only if the
acquisition count is zero or the current instant is not `X`; otherwise
it decrements the count by exactly one, leaving the shared data and the
current instant unchanged. -/
theorem release_error_iff_and_decrement {T : Type u} (X : Instant)
    (st : CapsuleState T) :
    ((∃ e, release X st = .error e) ↔
      (st.acquisitionCount = 0 ∨ st.currentInstant ≠ X)) ∧
    (st.acquisitionCount ≠ 0 → st.currentInstant = X →
      release X st =
        .ok { st with acquisitionCount := st.acquisitionCount - 1 }) := by
  unfold release
  by_cases hcnt : st.acquisitionCount = 0
  · simp [hcnt]
  · by_cases hcur : st.currentInstant = X
    · simp [hcnt, hcur]
    · simp [hcnt, hcur]

/-- C5 (witness): on a state acquired at the root with count `1`,
`release` at a child instant errors, and `release` at the root returns
count `0` with the data and current instant unchanged. -/
theorem release_error_iff_and_decrement_witness :
    (∃ e, release [0]
        { data := (7 : Nat), currentInstant := [], acquisitionCount := 1 }
        = .error e) ∧
    release []
        { data := (7 : Nat), currentInstant := [], acquisitionCount := 1 }
        = .ok { data := 7, currentInstant := [], acquisitionCount := 0 } :=
  ⟨((release_error_iff_and_decrement [0]
      { data := 7, currentInstant := [], acquisitionCount := 1 }).1).mpr
      (Or.inr (by decide)),
   (release_error_iff_and_decrement []
      { data := 7, currentInstant := [], acquisitionCount := 1 }).2
      (by decide) rfl⟩

end UnSHACLed
